import Mathlib

/-!
Shallow embedding of the arbitrage scanner (src/main.py) and verification of
its specification.  Prices, volumes and fee rates are modelled as exact
rationals; fallible operations (dict lookups that may raise `KeyError`,
fetches that may fail) are modelled with `Option` / `Except`.
-/

/-- A normalized ticker snapshot as returned by `fetch_ticker` (src/main.py
lines 29-35): symbol, exchange id, ask, bid and base volume. -/
structure Quote where
  symbol : String
  exchange : String
  ask : ℚ
  bid : ℚ
  volume : ℚ
deriving Repr, DecidableEq

/-- The raw payload of `exchange.fetch_ticker` that `fetch_ticker` consumes
(fields `ask`, `bid`, `baseVolume`). -/
structure RawTicker where
  ask : ℚ
  bid : ℚ
  baseVolume : ℚ
deriving Repr, DecidableEq

/-- An arbitrage opportunity record as appended in src/main.py lines 84-94. -/
structure Opportunity where
  symbol : String
  buy_at : String
  sell_at : String
  buy_price : ℚ
  sell_price : ℚ
  fees : ℚ
  net_profit : ℚ
  profit_percentage : ℚ
  volume : ℚ
deriving Repr, DecidableEq

/-- The static fee schedule `FEES` of src/main.py lines 18-22
(0.1 %, 0.4 %, 0.2 %). -/
def FEES : List (String × ℚ) :=
  [("binance", 1/1000), ("kraken", 4/1000), ("bitfinex", 2/1000)]

/-- Dictionary lookup `FEES[venue]`; `none` models a raised `KeyError`. -/
def feeRate (venue : String) : Option ℚ :=
  FEES.lookup venue

/-- `fetch_ticker` (src/main.py lines 24-38): on a successful underlying
fetch it returns the normalized quote; any raised failure is caught and the
call returns `None` (here `none`).  The underlying network call's outcome is
passed in explicitly. -/
def fetch_ticker (exchangeId symbol : String) (outcome : Except String RawTicker) :
    Option Quote :=
  match outcome with
  | .error _ => none
  | .ok t =>
      some { symbol := symbol, exchange := exchangeId,
             ask := t.ask, bid := t.bid, volume := t.baseVolume }

/-- `fetch_all_tickers` (src/main.py lines 40-42): one `fetch_ticker` per
(exchange, symbol) pair, exchanges outermost, results in task order. -/
def fetch_all_tickers (exchanges symbols : List String)
    (outcome : String → String → Except String RawTicker) : List (Option Quote) :=
  exchanges.flatMap (fun e => symbols.map (fun s => fetch_ticker e s (outcome e s)))

/-- One step of the grouping loop of src/main.py lines 49-54: a successful
result is appended to its symbol's list, creating the key on first sight. -/
def addResult (g : List (String × List Quote)) (q : Quote) :
    List (String × List Quote) :=
  if g.any (fun p => p.1 == q.symbol) then
    g.map (fun p => if p.1 == q.symbol then (p.1, p.2 ++ [q]) else p)
  else
    g ++ [(q.symbol, [q])]

/-- `grouped_results` (src/main.py lines 48-54): fold the fetch results,
skipping `None`, grouping quotes by symbol in first-appearance order. -/
def groupedResults (rs : List (Option Quote)) : List (String × List Quote) :=
  rs.foldl (fun g r => match r with | none => g | some q => addResult g q) []

/-- The subsequence of successful results carrying a given symbol, in order;
this is the value the grouping dict associates to that symbol. -/
def quotesFor (s : String) (rs : List (Option Quote)) : List Quote :=
  (rs.filterMap id).filter (fun q => q.symbol == s)

/-- The raw pre-fee spread of src/main.py lines 60-69: `None` for an empty
group (line 61), otherwise `max(bid) - min(ask)` over the whole group,
reported only when positive (line 69). -/
def rawSpread (results : List Quote) : Option ℚ :=
  match results with
  | [] => none
  | r :: rs =>
      let highest_bid := (rs.map (·.bid)).foldl max r.bid
      let lowest_ask := (rs.map (·.ask)).foldl min r.ask
      let max_diff := highest_bid - lowest_ask
      if max_diff > 0 then some max_diff else none

/-- `itertools.combinations(results, 2)`: all pairs `(results[i], results[j])`
with `i < j`, in lexicographic index order. -/
def combinations2 {α : Type} : List α → List (α × α)
  | [] => []
  | x :: xs => xs.map (fun y => (x, y)) ++ combinations2 xs

/-- The opportunity record built by src/main.py lines 73-94 for a qualifying
pair: `e1` is the earlier-listed quote (the seller), `e2` the later-listed
one (the buyer); `fee2`/`fee1` are the buy/sell venue fee rates. -/
def mkOpportunity (symbol : String) (e1 e2 : Quote) (fee2 fee1 : ℚ) :
    Opportunity :=
  let buy_price := e2.ask
  let sell_price := e1.bid
  let buy_fee := buy_price * fee2
  let sell_fee := sell_price * fee1
  let crypto_amount := (1 - fee2) / buy_price
  let sell_amount := (crypto_amount * sell_price) * (1 - fee1)
  let net_profit := sell_amount - 1
  let profit_percentage := (net_profit / 1) * 100
  { symbol := symbol
    buy_at := e2.exchange
    sell_at := e1.exchange
    buy_price := buy_price
    sell_price := sell_price
    fees := buy_fee + sell_fee
    net_profit := net_profit
    profit_percentage := profit_percentage
    volume := min e1.volume e2.volume }

/-- The guard and fee lookups of the pair-loop body, src/main.py lines
71-77: when `exchange1.bid > exchange2.ask > 0` fails nothing is emitted;
otherwise the fee lookups run (buy side, line 75, first) and the opportunity
record is built unconditionally. -/
def evalPairWith (fees : String → Option ℚ) (symbol : String) (e1 e2 : Quote) :
    Except String (Option Opportunity) :=
  if e1.bid > e2.ask ∧ e2.ask > 0 then
    match fees e2.exchange, fees e1.exchange with
    | some fee2, some fee1 => .ok (some (mkOpportunity symbol e1 e2 fee2 fee1))
    | none, _ => .error ("KeyError: " ++ e2.exchange)
    | some _, none => .error ("KeyError: " ++ e1.exchange)
  else
    .ok none

/-- The pair loop of src/main.py lines 71-94 over a given pair list:
accumulate the emitted opportunities in order, propagating a raised
`KeyError`. -/
def evalPairsWith (fees : String → Option ℚ) (symbol : String) :
    List (Quote × Quote) → Except String (List Opportunity)
  | [] => .ok []
  | (e1, e2) :: rest =>
      match evalPairWith fees symbol e1 e2, evalPairsWith fees symbol rest with
      | .error e, _ => .error e
      | .ok _, .error e => .error e
      | .ok (some op), .ok os => .ok (op :: os)
      | .ok none, .ok os => .ok os

/-- The per-symbol opportunity enumeration of src/main.py lines 71-94:
iterate `combinations(results, 2)` and emit qualifying pairs. -/
def evalSymbolOppsWith (fees : String → Option ℚ) (symbol : String)
    (results : List Quote) : Except String (List Opportunity) :=
  evalPairsWith fees symbol (combinations2 results)

/-- The per-symbol evaluation with the program's static `FEES` schedule. -/
def evalSymbolOpps (symbol : String) (results : List Quote) :
    Except String (List Opportunity) :=
  evalSymbolOppsWith feeRate symbol results

/-- Line 96 of src/main.py: stable sort by `profit_percentage` descending
(`list.sort(key=..., reverse=True)` is a stable sort under the reversed
key comparison). -/
def sortOpps (l : List Opportunity) : List Opportunity :=
  l.mergeSort (fun x y => decide (y.profit_percentage ≤ x.profit_percentage))

/-- The spec's notion of a non-degenerate quote (§3): nonzero bid, ask and
volume.  Used to compare the code's behaviour with the spec's filtering. -/
def nonDegenerate (q : Quote) : Bool :=
  q.bid ≠ 0 && q.ask ≠ 0 && q.volume ≠ 0

/-- The per-symbol loop of src/main.py lines 59-94 over the grouped results:
the raw pre-fee spread entry for each symbol (with the dead-code guard of
lines 60-62 for an empty group) and the concatenated opportunity list. -/
def scanGroups :
    List (String × List Quote) →
      Except String (List Opportunity × List (String × Option ℚ))
  | [] => .ok ([], [])
  | (s, results) :: rest =>
      if results.isEmpty then
        match scanGroups rest with
        | .error e => .error e
        | .ok (ops, bf) => .ok (ops, (s, none) :: bf)
      else
        match evalSymbolOpps s results, scanGroups rest with
        | .error e, _ => .error e
        | .ok _, .error e => .error e
        | .ok ops, .ok (opsRest, bf) =>
            .ok (ops ++ opsRest, (s, rawSpread results) :: bf)

/-- `scan_arbitrage` (src/main.py lines 44-98): fetch everything, group by
symbol, evaluate every group, sort the opportunities; returns
(opportunities, grouped results, pre-fee spreads).  An uncaught exception in
the evaluation (a fee `KeyError`) is the `Except.error` case. -/
def scan_arbitrage (exchanges symbols : List String)
    (outcome : String → String → Except String RawTicker) :
    Except String
      (List Opportunity × List (String × List Quote) × List (String × Option ℚ)) :=
  let grouped := groupedResults (fetch_all_tickers exchanges symbols outcome)
  match scanGroups grouped with
  | .error e => .error e
  | .ok (ops, bf) => .ok (sortOpps ops, grouped, bf)

/-- The outcome of the polling loop of `continuous_arbitrage_scan`
(src/main.py lines 170-198): the snapshots of the cycles that completed, the
uncaught failure that ended the loop (if any), and whether the `finally`
block closed the exchange connections (it always runs). -/
structure LoopResult (α : Type) where
  completed : List α
  failure : Option String
  closed : Bool
deriving Repr, DecidableEq

/-- The `while True` loop of `continuous_arbitrage_scan` (src/main.py lines
170-198), driven by the per-cycle computation outcomes: the `try` block has
no `except` clause, so the first cycle whose computation raises ends the
loop; the `finally` block then closes the connections.  A finite prefix of
cycle outcomes models the unbounded loop. -/
def continuous_arbitrage_scan {α : Type} :
    List (Except String α) → LoopResult α
  | [] => ⟨[], none, true⟩
  | .ok snapshot :: rest =>
      let r := continuous_arbitrage_scan rest
      ⟨snapshot :: r.completed, r.failure, true⟩
  | .error e :: _ => ⟨[], some e, true⟩

/-- Concrete quote: the spec §8 scenario's venue B (seller side),
ask 106, bid 105, volume 5 on kraken. -/
def qSellKraken : Quote := ⟨"X/USDT", "kraken", 106, 105, 5⟩

/-- Concrete quote: the spec §8 scenario's venue A (buyer side),
ask 101, bid 100, volume 10 on binance. -/
def qBuyBinance : Quote := ⟨"X/USDT", "binance", 101, 100, 10⟩

/-- Concrete degenerate quote: ask 1 but zero bid and zero volume. -/
def qDegenKraken : Quote := ⟨"X/USDT", "kraken", 1, 0, 0⟩

/-- Concrete healthy quote whose bid (2) exceeds `qDegenKraken`'s ask (1). -/
def qGoodBinance : Quote := ⟨"X/USDT", "binance", 3, 2, 5⟩

/-- Concrete quote listed first: ask 10, bid 1. -/
def qRevEarlier : Quote := ⟨"X/USDT", "binance", 10, 1, 5⟩

/-- Concrete quote listed second: ask 2, bid 20 — its bid crosses
`qRevEarlier`'s ask, but not the other way around. -/
def qRevLater : Quote := ⟨"X/USDT", "kraken", 2, 20, 5⟩

/-- Concrete group mixing a healthy quote (bid 10, ask 8) with a degenerate
one (bid 0, ask 1, volume 0). -/
def lSpreadMix : List Quote :=
  [⟨"X/USDT", "binance", 8, 10, 1⟩, ⟨"X/USDT", "kraken", 1, 0, 0⟩]

/-- A fee schedule with rate 0 on every venue, for the zero-fee reduction. -/
def zeroFees : String → Option ℚ := fun _ => some 0

/-- Concrete quote on a venue (`okex`) that is absent from the `FEES`
schedule; its bid 5 crosses `qGoodBinance`'s ask 3. -/
def qOkexSeller : Quote := ⟨"X/USDT", "okex", 3, 5, 2⟩

/-- Concrete quote for instrument A/USDT on binance. -/
def qW1 : Quote := ⟨"A/USDT", "binance", 3, 5, 7⟩

/-- Concrete quote for instrument B/USDT on kraken. -/
def qW2 : Quote := ⟨"B/USDT", "kraken", 2, 4, 6⟩

/-- Concrete quote for instrument A/USDT on bitfinex. -/
def qW3 : Quote := ⟨"A/USDT", "bitfinex", 4, 2, 9⟩

/-! ## General lemmas about the pair evaluation -/

theorem evalPairWith_of_cross {fees : String → Option ℚ} {s : String}
    {e1 e2 : Quote} {fee2 fee1 : ℚ} (hc : e1.bid > e2.ask ∧ e2.ask > 0)
    (h2 : fees e2.exchange = some fee2) (h1 : fees e1.exchange = some fee1) :
    evalPairWith fees s e1 e2 = .ok (some (mkOpportunity s e1 e2 fee2 fee1)) := by
  simp [evalPairWith, hc, h2, h1]

theorem evalPairWith_of_not_cross {fees : String → Option ℚ} {s : String}
    {e1 e2 : Quote} (hc : ¬(e1.bid > e2.ask ∧ e2.ask > 0)) :
    evalPairWith fees s e1 e2 = .ok none := by
  simp [evalPairWith, hc]

theorem evalPairWith_ok_some {fees : String → Option ℚ} {s : String}
    {e1 e2 : Quote} {op : Opportunity}
    (h : evalPairWith fees s e1 e2 = .ok (some op)) :
    (e1.bid > e2.ask ∧ e2.ask > 0) ∧
      ∃ fee2 fee1, fees e2.exchange = some fee2 ∧ fees e1.exchange = some fee1 ∧
        op = mkOpportunity s e1 e2 fee2 fee1 := by
  by_cases hc : e1.bid > e2.ask ∧ e2.ask > 0
  · refine ⟨hc, ?_⟩
    rw [evalPairWith, if_pos hc] at h
    cases h2 : fees e2.exchange with
    | none => rw [h2] at h; cases h
    | some fee2 =>
        cases h1 : fees e1.exchange with
        | none => rw [h2, h1] at h; cases h
        | some fee1 =>
            rw [h2, h1] at h
            refine ⟨fee2, fee1, rfl, rfl, ?_⟩
            cases h
            rfl
  · rw [evalPairWith_of_not_cross hc] at h
    cases h

theorem evalPairsWith_sound {fees : String → Option ℚ} {s : String} :
    ∀ {ps : List (Quote × Quote)} {opps : List Opportunity},
      evalPairsWith fees s ps = .ok opps →
        (∀ op ∈ opps, ∃ p ∈ ps, evalPairWith fees s p.1 p.2 = .ok (some op)) ∧
          opps.length ≤ ps.length
  | [], opps, h => by
      cases h
      simp
  | (e1, e2) :: rest, opps, h => by
      rw [evalPairsWith] at h
      cases hp : evalPairWith fees s e1 e2 with
      | error e => rw [hp] at h; cases h
      | ok o =>
          cases hr : evalPairsWith fees s rest with
          | error e => rw [hp, hr] at h; cases o <;> cases h
          | ok os =>
              obtain ⟨ih1, ih2⟩ := evalPairsWith_sound hr
              rw [hp, hr] at h
              cases o with
              | none =>
                  cases h
                  refine ⟨?_, Nat.le_succ_of_le ih2⟩
                  intro op hop
                  obtain ⟨p, hpmem, hpe⟩ := ih1 op hop
                  exact ⟨p, List.mem_cons_of_mem _ hpmem, hpe⟩
              | some op0 =>
                  cases h
                  constructor
                  · intro op hop
                    rcases List.mem_cons.mp hop with hop | hop
                    · exact ⟨(e1, e2), List.mem_cons_self _ _, by rw [hp, hop]⟩
                    · obtain ⟨p, hpmem, hpe⟩ := ih1 op hop
                      exact ⟨p, List.mem_cons_of_mem _ hpmem, hpe⟩
                  · simpa using Nat.succ_le_succ ih2

theorem combinations2_length {α : Type} :
    ∀ l : List α, (combinations2 l).length = Nat.choose l.length 2
  | [] => by simp [combinations2]
  | x :: xs => by
      simp [combinations2, combinations2_length xs, Nat.choose,
        Nat.choose_one_right]

/-! ## C3, C7: computed fields of an emitted opportunity -/

/-- C3: every opportunity emitted by the pair evaluation with buyer ask `a`,
seller bid `b` and fee rates `fb` (buy venue), `fs` (sell venue) has
netProfit = ((1-fb)/a)*b*(1-fs) - 1, profitPercentage = netProfit * 100,
totalFees = a*fb + b*fs (reported, not subtracted from netProfit),
minVolume = min of the two volumes; and the record is emitted purely on the
crossing condition, regardless of the sign of netProfit. -/
theorem opportunity_fields_correct {s : String} {e1 e2 : Quote}
    {op : Opportunity} {fb fs : ℚ}
    (h : evalPairWith feeRate s e1 e2 = .ok (some op))
    (h2 : feeRate e2.exchange = some fb) (h1 : feeRate e1.exchange = some fs) :
    op.net_profit = (1 - fb) / e2.ask * e1.bid * (1 - fs) - 1 ∧
    op.profit_percentage = op.net_profit * 100 ∧
    op.fees = e2.ask * fb + e1.bid * fs ∧
    op.volume = min e2.volume e1.volume ∧
    evalPairWith feeRate s e1 e2 = .ok (some (mkOpportunity s e1 e2 fb fs)) := by
  obtain ⟨hc, fee2, fee1, h2', h1', hop⟩ := evalPairWith_ok_some h
  have hfb : fb = fee2 := Option.some.inj (h2.symm.trans h2')
  have hfs : fs = fee1 := Option.some.inj (h1.symm.trans h1')
  subst hfb; subst hfs; subst hop
  refine ⟨rfl, ?_, rfl, min_comm _ _, evalPairWith_of_cross hc h2 h1⟩
  show ((1 - fb) / e2.ask * e1.bid * (1 - fs) - 1) / 1 * 100 = _ * 100
  rw [div_one]
  rfl

/-- Witness for C3 at the spec §8 scenario (buy on binance at 101, sell on
kraken at 105). -/
theorem opportunity_fields_correct_witness :
    (mkOpportunity "X/USDT" qSellKraken qBuyBinance (1/1000) (4/1000)).net_profit
        = (1 - 1/1000) / qBuyBinance.ask * qSellKraken.bid * (1 - 4/1000) - 1 ∧
    (mkOpportunity "X/USDT" qSellKraken qBuyBinance (1/1000) (4/1000)).profit_percentage
        = (mkOpportunity "X/USDT" qSellKraken qBuyBinance (1/1000) (4/1000)).net_profit * 100 ∧
    (mkOpportunity "X/USDT" qSellKraken qBuyBinance (1/1000) (4/1000)).fees
        = qBuyBinance.ask * (1/1000) + qSellKraken.bid * (4/1000) ∧
    (mkOpportunity "X/USDT" qSellKraken qBuyBinance (1/1000) (4/1000)).volume
        = min qBuyBinance.volume qSellKraken.volume ∧
    evalPairWith feeRate "X/USDT" qSellKraken qBuyBinance =
      .ok (some (mkOpportunity "X/USDT" qSellKraken qBuyBinance (1/1000) (4/1000))) :=
  opportunity_fields_correct rfl rfl rfl

/-- C7: an opportunity emitted under fee rate 0 on both venues has
netProfit = seller.bid / buyer.ask - 1. -/
theorem net_profit_zero_fees (fees : String → Option ℚ) {s : String}
    {e1 e2 : Quote} {op : Opportunity}
    (h : evalPairWith fees s e1 e2 = .ok (some op))
    (h2 : fees e2.exchange = some 0) (h1 : fees e1.exchange = some 0) :
    op.net_profit = e1.bid / e2.ask - 1 := by
  obtain ⟨hc, fee2, fee1, h2', h1', hop⟩ := evalPairWith_ok_some h
  have hfb : (0 : ℚ) = fee2 := Option.some.inj (h2.symm.trans h2')
  have hfs : (0 : ℚ) = fee1 := Option.some.inj (h1.symm.trans h1')
  subst hop
  show (1 - fee2) / e2.ask * e1.bid * (1 - fee1) - 1 = e1.bid / e2.ask - 1
  rw [← hfb, ← hfs]
  ring

/-- Witness for C7 with the all-zero fee schedule. -/
theorem net_profit_zero_fees_witness :
    (mkOpportunity "X/USDT" qSellKraken qBuyBinance 0 0).net_profit
      = qSellKraken.bid / qBuyBinance.ask - 1 :=
  net_profit_zero_fees zeroFees rfl rfl rfl

/-! ## C10: invariants of the emitted list -/

/-- C10: every opportunity emitted by the per-symbol evaluation of
`scan_arbitrage` satisfies sell_price > buy_price > 0, and the number of
emitted opportunities is at most the number of unordered pairs of quotes
(`combinations` yields each unordered pair once and each pair emits at most
one opportunity). -/
theorem emitted_opportunities_invariant {s : String} {results : List Quote}
    {opps : List Opportunity} (h : evalSymbolOpps s results = .ok opps) :
    (∀ op ∈ opps, op.sell_price > op.buy_price ∧ op.buy_price > 0) ∧
      opps.length ≤ Nat.choose results.length 2 := by
  rw [evalSymbolOpps, evalSymbolOppsWith] at h
  obtain ⟨h1, h2⟩ := evalPairsWith_sound h
  constructor
  · intro op hop
    obtain ⟨p, _, hpe⟩ := h1 op hop
    obtain ⟨hc, fee2, fee1, _, _, hop'⟩ := evalPairWith_ok_some hpe
    subst hop'
    exact hc
  · calc opps.length ≤ (combinations2 results).length := h2
      _ = Nat.choose results.length 2 := combinations2_length results

/-- Witness for C10 on a two-quote group emitting one opportunity. -/
theorem emitted_opportunities_invariant_witness :
    (mkOpportunity "X/USDT" qSellKraken qBuyBinance (1/1000) (4/1000)).sell_price >
      (mkOpportunity "X/USDT" qSellKraken qBuyBinance (1/1000) (4/1000)).buy_price ∧
    (mkOpportunity "X/USDT" qSellKraken qBuyBinance (1/1000) (4/1000)).buy_price > 0 ∧
    [mkOpportunity "X/USDT" qSellKraken qBuyBinance (1/1000) (4/1000)].length
      ≤ Nat.choose [qSellKraken, qBuyBinance].length 2 := by
  have h : evalSymbolOpps "X/USDT" [qSellKraken, qBuyBinance] =
      .ok [mkOpportunity "X/USDT" qSellKraken qBuyBinance (1/1000) (4/1000)] := rfl
  have hinv := emitted_opportunities_invariant h
  have hop := hinv.1 _ (List.mem_cons_self _ _)
  exact ⟨hop.1, hop.2, hinv.2⟩

/-! ## C1: degenerate quotes are not filtered out -/

/-- C1 counterexample: a quote with bid 0 and volume 0 (degenerate in the
spec's sense) appears as the buyer side of an emitted opportunity — the
evaluation step guards only `buyer.ask > 0` and never filters on volume or
the other price. -/
theorem degenerate_quote_emitted :
    evalSymbolOpps "X/USDT" [qGoodBinance, qDegenKraken] =
      .ok [mkOpportunity "X/USDT" qGoodBinance qDegenKraken (4/1000) (1/1000)] ∧
    nonDegenerate qDegenKraken = false ∧
    (mkOpportunity "X/USDT" qGoodBinance qDegenKraken (4/1000) (1/1000)).buy_at
      = qDegenKraken.exchange ∧
    (mkOpportunity "X/USDT" qGoodBinance qDegenKraken (4/1000) (1/1000)).volume
      = 0 := by
  refine ⟨rfl, ?_, rfl, ?_⟩
  · simp [nonDegenerate, qDegenKraken]
  · show min qGoodBinance.volume qDegenKraken.volume = 0
    simp [qGoodBinance, qDegenKraken]

/-- C1 amended: the only degeneracy guard in the evaluation step is
`buyer.ask > 0`; every emitted opportunity has positive buy and sell prices
(so a quote with ask 0 is never the buyer, and one with bid 0 never the
seller), but quotes with zero volume, zero bid (buyer side) or zero ask
(seller side) are not excluded. -/
theorem emitted_sides_positive_prices {s : String} {results : List Quote}
    {opps : List Opportunity} (h : evalSymbolOpps s results = .ok opps) :
    ∀ op ∈ opps, op.buy_price > 0 ∧ op.sell_price > 0 := by
  rw [evalSymbolOpps, evalSymbolOppsWith] at h
  obtain ⟨h1, _⟩ := evalPairsWith_sound h
  intro op hop
  obtain ⟨p, _, hpe⟩ := h1 op hop
  obtain ⟨hc, fee2, fee1, _, _, hop'⟩ := evalPairWith_ok_some hpe
  subst hop'
  exact ⟨hc.2, lt_trans hc.2 hc.1⟩

/-- Witness for the amended C1, on the group containing the degenerate
buyer. -/
theorem emitted_sides_positive_prices_witness :
    (mkOpportunity "X/USDT" qGoodBinance qDegenKraken (4/1000) (1/1000)).buy_price > 0 ∧
    (mkOpportunity "X/USDT" qGoodBinance qDegenKraken (4/1000) (1/1000)).sell_price > 0 := by
  have h : evalSymbolOpps "X/USDT" [qGoodBinance, qDegenKraken] =
      .ok [mkOpportunity "X/USDT" qGoodBinance qDegenKraken (4/1000) (1/1000)] := rfl
  exact emitted_sides_positive_prices h _ (List.mem_cons_self _ _)

/-! ## C2: only one direction per unordered pair is tested -/

/-- C2 counterexample: the later-listed quote's bid (20) exceeds the
earlier-listed quote's ask (10 > 0), yet no opportunity is emitted — the
code tests only the earlier-as-seller direction of each unordered pair. -/
theorem reverse_direction_not_tested :
    qRevLater.bid > qRevEarlier.ask ∧ qRevEarlier.ask > 0 ∧
    evalSymbolOpps "X/USDT" [qRevEarlier, qRevLater] = .ok [] := by
  refine ⟨?_, ?_, rfl⟩ <;> norm_num [qRevLater, qRevEarlier]

/-- C2 amended: for a pair of quotes `[q1, q2]` (in listing order) only the
direction with `q1` as seller and `q2` as buyer is evaluated: exactly one
opportunity is emitted iff `q1.bid > q2.ask > 0`, and nothing is emitted
otherwise, even when `q2.bid > q1.ask`. -/
theorem pair_single_direction (fees : String → Option ℚ) {s : String}
    {q1 q2 : Quote} {f2 f1 : ℚ}
    (h2 : fees q2.exchange = some f2) (h1 : fees q1.exchange = some f1) :
    evalSymbolOppsWith fees s [q1, q2] =
      if q1.bid > q2.ask ∧ q2.ask > 0 then .ok [mkOpportunity s q1 q2 f2 f1]
      else .ok [] := by
  rw [evalSymbolOppsWith]
  show evalPairsWith fees s [(q1, q2)] = _
  by_cases hc : q1.bid > q2.ask ∧ q2.ask > 0
  · rw [if_pos hc, evalPairsWith, evalPairWith_of_cross hc h2 h1]
    rfl
  · rw [if_neg hc, evalPairsWith, evalPairWith_of_not_cross hc]
    rfl

/-- Witness for the amended C2 on a concrete pair (the crossing branch). -/
theorem pair_single_direction_witness :
    evalSymbolOppsWith feeRate "X/USDT" [qGoodBinance, qDegenKraken] =
      if qGoodBinance.bid > qDegenKraken.ask ∧ qDegenKraken.ask > 0 then
        .ok [mkOpportunity "X/USDT" qGoodBinance qDegenKraken (4/1000) (1/1000)]
      else .ok [] :=
  pair_single_direction feeRate rfl rfl

/-! ## C9: a failing cycle ends the loop -/

/-- C9 counterexample: a quote from a venue missing from `FEES` makes the
cycle's evaluation raise `KeyError`, and the loop, whose `try` block has no
`except` clause, completes no further cycle: the next cycle (which would
succeed) never runs, contradicting "logged and the loop proceeds". -/
theorem cycle_failure_stops_loop :
    evalSymbolOpps "X/USDT" [qOkexSeller, qGoodBinance]
      = .error ("KeyError: " ++ "okex") ∧
    continuous_arbitrage_scan [Except.error "KeyError: okex", Except.ok (1 : ℕ)]
      = ⟨[], some "KeyError: okex", true⟩ :=
  ⟨rfl, rfl⟩

/-- C9 amended: a failure raised during a cycle's computation is not caught
by the loop: the loop terminates with that failure after running its
`finally` cleanup, completing no later cycle; and a missing fee rate for a
venue appearing in a crossing pair does raise (it is not treated as zero
fee). -/
theorem cycle_failure_terminates {α : Type} :
    (∀ (e : String) (rest : List (Except String α)),
      continuous_arbitrage_scan (Except.error e :: rest) =
        ⟨[], some e, true⟩) ∧
    (∀ (s : String) (e1 e2 : Quote) (f2 : ℚ), e1.bid > e2.ask ∧ e2.ask > 0 →
      feeRate e2.exchange = some f2 → feeRate e1.exchange = none →
      evalPairWith feeRate s e1 e2 = .error ("KeyError: " ++ e1.exchange)) := by
  constructor
  · intro e rest
    rfl
  · intro s e1 e2 f2 hc h2 h1
    rw [evalPairWith, if_pos hc, h2, h1]

/-- Witness for the amended C9: the loop result on a concrete failing cycle,
and the raised `KeyError` for the un-feed venue `okex`. -/
theorem cycle_failure_terminates_witness :
    continuous_arbitrage_scan [Except.error "boom", Except.ok (5 : ℕ)]
      = ⟨[], some "boom", true⟩ ∧
    evalPairWith feeRate "X/USDT" qOkexSeller qGoodBinance
      = .error ("KeyError: " ++ qOkexSeller.exchange) := by
  have h := @cycle_failure_terminates ℕ
  refine ⟨h.1 "boom" [Except.ok 5], ?_⟩
  refine h.2 "X/USDT" qOkexSeller qGoodBinance (1/1000) ?_ rfl rfl
  norm_num [qOkexSeller, qGoodBinance]

/-! ## C4: the raw spread is computed over the unfiltered group -/

theorem foldl_max_props : ∀ (l : List ℚ) (b : ℚ),
    b ≤ l.foldl max b ∧ (∀ x ∈ l, x ≤ l.foldl max b) ∧
      (l.foldl max b = b ∨ l.foldl max b ∈ l)
  | [], b => ⟨le_refl _, by simp, Or.inl rfl⟩
  | x :: xs, b => by
      obtain ⟨hb, hall, hmem⟩ := foldl_max_props xs (max b x)
      rw [List.foldl_cons]
      refine ⟨le_trans (le_max_left b x) hb, ?_, ?_⟩
      · intro y hy
        rcases List.mem_cons.mp hy with rfl | h
        · exact le_trans (le_max_right _ _) hb
        · exact hall y h
      · rcases hmem with h | h
        · rcases max_choice b x with hbx | hbx
          · exact Or.inl (h.trans hbx)
          · refine Or.inr ?_
            rw [h, hbx]
            exact List.mem_cons_self x xs
        · exact Or.inr (List.mem_cons_of_mem x h)

theorem foldl_min_props : ∀ (l : List ℚ) (b : ℚ),
    l.foldl min b ≤ b ∧ (∀ x ∈ l, l.foldl min b ≤ x) ∧
      (l.foldl min b = b ∨ l.foldl min b ∈ l)
  | [], b => ⟨le_refl _, by simp, Or.inl rfl⟩
  | x :: xs, b => by
      obtain ⟨hb, hall, hmem⟩ := foldl_min_props xs (min b x)
      rw [List.foldl_cons]
      refine ⟨le_trans hb (min_le_left b x), ?_, ?_⟩
      · intro y hy
        rcases List.mem_cons.mp hy with rfl | h
        · exact le_trans hb (min_le_right _ _)
        · exact hall y h
      · rcases hmem with h | h
        · rcases min_choice b x with hbx | hbx
          · exact Or.inl (h.trans hbx)
          · refine Or.inr ?_
            rw [h, hbx]
            exact List.mem_cons_self x xs
        · exact Or.inr (List.mem_cons_of_mem x h)

/-- C4 counterexample: with a degenerate quote (bid 0, ask 1, volume 0) in
the group, the code's spread is `10 - 1 = 9`, while the spread over the
degenerate-filtered set (what the claim states) is `10 - 8 = 2`. -/
theorem raw_spread_includes_degenerate :
    rawSpread lSpreadMix = some 9 ∧
    rawSpread (lSpreadMix.filter nonDegenerate) = some 2 ∧
    rawSpread lSpreadMix ≠ rawSpread (lSpreadMix.filter nonDegenerate) := by
  have h1 : rawSpread lSpreadMix = some 9 := by
    simp only [rawSpread, lSpreadMix]
    norm_num [max_def, min_def]
  have hfil : lSpreadMix.filter nonDegenerate =
      [⟨"X/USDT", "binance", 8, 10, 1⟩] := by
    simp only [lSpreadMix, List.filter, nonDegenerate]
    norm_num
  have h2 : rawSpread (lSpreadMix.filter nonDegenerate) = some 2 := by
    rw [hfil]
    simp only [rawSpread]
    norm_num
  refine ⟨h1, h2, ?_⟩
  rw [h1, h2]
  intro h
  exact absurd (Option.some.inj h) (by norm_num)

/-- C4 amended: for a non-empty group the code reports
`max(bid) - min(ask)` over ALL quotes of the group — degenerate quotes
included, not filtered out — as the raw spread when that difference is
positive, and reports absence exactly when the difference over the whole
group is `≤ 0`. -/
theorem raw_spread_characterization (results : List Quote) :
    (∀ d, rawSpread results = some d →
      0 < d ∧ ∃ qb ∈ results, ∃ qa ∈ results, d = qb.bid - qa.ask ∧
        (∀ q ∈ results, q.bid ≤ qb.bid) ∧ (∀ q ∈ results, qa.ask ≤ q.ask)) ∧
    (results ≠ [] → rawSpread results = none →
      ∃ qb ∈ results, ∃ qa ∈ results, qb.bid - qa.ask ≤ 0 ∧
        (∀ q ∈ results, q.bid ≤ qb.bid) ∧ (∀ q ∈ results, qa.ask ≤ q.ask)) := by
  cases results with
  | nil =>
      constructor
      · intro d h; cases h
      · intro hne _; exact absurd rfl hne
  | cons r rs =>
      obtain ⟨hbM, hallM, hmemM⟩ := foldl_max_props (rs.map (·.bid)) r.bid
      obtain ⟨hbm, hallm, hmemm⟩ := foldl_min_props (rs.map (·.ask)) r.ask
      have hqb : ∃ qb ∈ r :: rs, qb.bid = (rs.map (·.bid)).foldl max r.bid := by
        rcases hmemM with h | h
        · exact ⟨r, List.mem_cons_self r rs, h.symm⟩
        · obtain ⟨q, hq, hq2⟩ := List.mem_map.mp h
          exact ⟨q, List.mem_cons_of_mem r hq, hq2⟩
      have hqa : ∃ qa ∈ r :: rs, qa.ask = (rs.map (·.ask)).foldl min r.ask := by
        rcases hmemm with h | h
        · exact ⟨r, List.mem_cons_self r rs, h.symm⟩
        · obtain ⟨q, hq, hq2⟩ := List.mem_map.mp h
          exact ⟨q, List.mem_cons_of_mem r hq, hq2⟩
      have hallbid : ∀ q ∈ r :: rs, q.bid ≤ (rs.map (·.bid)).foldl max r.bid := by
        intro q hq
        rcases List.mem_cons.mp hq with h | h
        · subst h; exact hbM
        · exact hallM _ (List.mem_map_of_mem _ h)
      have hallask : ∀ q ∈ r :: rs, (rs.map (·.ask)).foldl min r.ask ≤ q.ask := by
        intro q hq
        rcases List.mem_cons.mp hq with h | h
        · subst h; exact hbm
        · exact hallm _ (List.mem_map_of_mem _ h)
      have hraw : rawSpread (r :: rs) =
          if (rs.map (·.bid)).foldl max r.bid - (rs.map (·.ask)).foldl min r.ask > 0
          then some ((rs.map (·.bid)).foldl max r.bid - (rs.map (·.ask)).foldl min r.ask)
          else none := rfl
      obtain ⟨qb, hqbmem, hqbbid⟩ := hqb
      obtain ⟨qa, hqamem, hqaask⟩ := hqa
      constructor
      · intro d h
        rw [hraw] at h
        by_cases hd :
            (rs.map (·.bid)).foldl max r.bid - (rs.map (·.ask)).foldl min r.ask > 0
        · rw [if_pos hd] at h
          have hdd := Option.some.inj h
          refine ⟨hdd ▸ hd, qb, hqbmem, qa, hqamem, ?_, ?_, ?_⟩
          · rw [← hdd, hqbbid, hqaask]
          · intro q hq; rw [hqbbid]; exact hallbid q hq
          · intro q hq; rw [hqaask]; exact hallask q hq
        · rw [if_neg hd] at h; cases h
      · intro _ h
        rw [hraw] at h
        by_cases hd :
            (rs.map (·.bid)).foldl max r.bid - (rs.map (·.ask)).foldl min r.ask > 0
        · rw [if_pos hd] at h; cases h
        · refine ⟨qb, hqbmem, qa, hqamem, ?_, ?_, ?_⟩
          · rw [hqbbid, hqaask]; exact le_of_not_lt hd
          · intro q hq; rw [hqbbid]; exact hallbid q hq
          · intro q hq; rw [hqaask]; exact hallask q hq

/-- Witness for the amended C4 on the mixed group (spread 9 over the whole
group, achieved at the healthy bid 10 and the degenerate ask 1). -/
theorem raw_spread_characterization_witness :
    0 < (9 : ℚ) ∧ ∃ qb ∈ lSpreadMix, ∃ qa ∈ lSpreadMix,
      (9 : ℚ) = qb.bid - qa.ask ∧ (∀ q ∈ lSpreadMix, q.bid ≤ qb.bid) ∧
      (∀ q ∈ lSpreadMix, qa.ask ≤ q.ask) := by
  have h1 : rawSpread lSpreadMix = some 9 := by
    simp only [rawSpread, lSpreadMix]
    norm_num [max_def, min_def]
  exact (raw_spread_characterization lSpreadMix).1 9 h1

/-! ## Grouping: lookup in the grouped mapping -/

theorem lookup_append_single (g : List (String × List Quote)) (k : String)
    (l : List Quote) (s : String) :
    List.lookup s (g ++ [(k, l)]) =
      match List.lookup s g with
      | some v => some v
      | none => if s = k then some l else none := by
  induction g with
  | nil =>
      simp only [List.nil_append, List.lookup]
      by_cases h : s = k
      · simp [h]
      · simp [h, beq_eq_false_iff_ne.mpr h]
  | cons p t ih =>
      simp only [List.cons_append, List.lookup]
      by_cases h : s = p.1
      · simp [h]
      · rw [show (s == p.1) = false from beq_eq_false_iff_ne.mpr h]
        exact ih

theorem lookup_map_update (g : List (String × List Quote)) (sym : String)
    (q : Quote) (s : String) :
    List.lookup s (g.map (fun p => if p.1 == sym then (p.1, p.2 ++ [q]) else p)) =
      if s = sym then (List.lookup s g).map (fun l => l ++ [q])
      else List.lookup s g := by
  induction g with
  | nil => by_cases h : s = sym <;> simp [h, List.lookup]
  | cons p t ih =>
      simp only [List.map_cons]
      by_cases hp : p.1 = sym
      · rw [show (p.1 == sym) = true from beq_iff_eq.mpr hp]
        by_cases hs : s = p.1
        · simp only [List.lookup, show (s == p.1) = true from beq_iff_eq.mpr hs]
          rw [if_pos (hs.trans hp)]
          rfl
        · simp only [List.lookup, show (s == p.1) = false from beq_eq_false_iff_ne.mpr hs]
          exact ih
      · rw [show (p.1 == sym) = false from beq_eq_false_iff_ne.mpr hp]
        by_cases hs : s = p.1
        · have hssym : ¬s = sym := fun h => hp ((hs.symm.trans h) ▸ rfl)
          simp only [List.lookup, show (s == p.1) = true from beq_iff_eq.mpr hs]
          rw [if_neg hssym]
        · simp only [List.lookup, show (s == p.1) = false from beq_eq_false_iff_ne.mpr hs]
          exact ih

theorem lookup_of_any_key (g : List (String × List Quote)) (sym : String)
    (h : g.any (fun p => p.1 == sym) = true) :
    ∃ l, List.lookup sym g = some l := by
  induction g with
  | nil => simp at h
  | cons p t ih =>
      rw [List.any_cons] at h
      rcases Bool.or_eq_true_iff.mp h with h1 | h1
      · have hp : p.1 = sym := beq_iff_eq.mp h1
        exact ⟨p.2, by simp [List.lookup, beq_iff_eq.mpr hp.symm]⟩
      · obtain ⟨l, hl⟩ := ih h1
        by_cases hp : sym = p.1
        · exact ⟨p.2, by simp [List.lookup, beq_iff_eq.mpr hp]⟩
        · exact ⟨l, by simp [List.lookup, beq_eq_false_iff_ne.mpr hp, hl]⟩


theorem lookup_eq_none_of_not_any (g : List (String × List Quote)) (sym : String)
    (h : g.any (fun p => p.1 == sym) = false) :
    List.lookup sym g = none := by
  induction g with
  | nil => rfl
  | cons p t ih =>
      rw [List.any_cons] at h
      obtain ⟨h1, h2⟩ := Bool.or_eq_false_iff.mp h
      have hne : (sym == p.1) = false := by
        rw [beq_eq_false_iff_ne] at h1 ⊢
        exact fun e => h1 e.symm
      simp [List.lookup, hne, ih h2]

theorem lookup_addResult (g : List (String × List Quote)) (q : Quote) (s : String) :
    List.lookup s (addResult g q) =
      if s = q.symbol then some ((List.lookup s g).getD [] ++ [q])
      else List.lookup s g := by
  rw [addResult]
  by_cases hany : g.any (fun p => p.1 == q.symbol) = true
  · rw [if_pos hany, lookup_map_update]
    by_cases hs : s = q.symbol
    · rw [if_pos hs, if_pos hs]
      subst hs
      obtain ⟨l, hl⟩ := lookup_of_any_key g q.symbol hany
      rw [hl]
      rfl
    · rw [if_neg hs, if_neg hs]
  · rw [if_neg hany, lookup_append_single]
    by_cases hs : s = q.symbol
    · subst hs
      rw [lookup_eq_none_of_not_any g q.symbol (Bool.of_not_eq_true hany)]
      simp
    · cases hl : List.lookup s g with
      | none => simp [hs]
      | some v => simp [hs]

theorem quotesFor_cons_none (s : String) (rs : List (Option Quote)) :
    quotesFor s (none :: rs) = quotesFor s rs := by
  simp [quotesFor]

theorem quotesFor_cons_some_eq (s : String) (q : Quote) (rs : List (Option Quote))
    (h : q.symbol = s) :
    quotesFor s (some q :: rs) = q :: quotesFor s rs := by
  simp [quotesFor, List.filter, beq_iff_eq.mpr h]

theorem quotesFor_cons_some_ne (s : String) (q : Quote) (rs : List (Option Quote))
    (h : q.symbol ≠ s) :
    quotesFor s (some q :: rs) = quotesFor s rs := by
  simp [quotesFor, List.filter, beq_eq_false_iff_ne.mpr h]

theorem lookup_groupFold :
    ∀ (rs : List (Option Quote)) (g : List (String × List Quote)) (s : String),
      List.lookup s
          (rs.foldl (fun g r => match r with | none => g | some q => addResult g q) g) =
        match List.lookup s g with
        | some l => some (l ++ quotesFor s rs)
        | none => if quotesFor s rs = [] then none else some (quotesFor s rs)
  | [], g, s => by
      simp only [List.foldl_nil]
      cases hl : List.lookup s g with
      | none => simp [quotesFor]
      | some l => simp [quotesFor]
  | none :: rs, g, s => by
      rw [List.foldl_cons, quotesFor_cons_none]
      exact lookup_groupFold rs g s
  | some q :: rs, g, s => by
      rw [List.foldl_cons]
      refine Eq.trans (lookup_groupFold rs (addResult g q) s) ?_
      rw [lookup_addResult]
      by_cases hs : s = q.symbol
      · rw [if_pos hs, quotesFor_cons_some_eq s q rs hs.symm]
        cases hl : List.lookup s g with
        | none => simp
        | some l => simp [List.append_assoc]
      · rw [if_neg hs, quotesFor_cons_some_ne s q rs (fun e => hs e.symm)]

/-! ## C5: instruments with no successful fetch are absent from the mapping -/

/-- C5 counterexample: with one configured instrument and one venue whose
fetch fails, `grouped_results` is the empty mapping — the instrument's key
is absent, not present with an empty sequence. -/
theorem all_failed_instrument_missing :
    fetch_all_tickers ["binance"] ["BTC/USDT"] (fun _ _ => .error "network") =
      [none] ∧
    groupedResults
      (fetch_all_tickers ["binance"] ["BTC/USDT"] (fun _ _ => .error "network")) =
      [] ∧
    List.lookup "BTC/USDT"
      (groupedResults
        (fetch_all_tickers ["binance"] ["BTC/USDT"] (fun _ _ => .error "network")))
      = none := ⟨rfl, rfl, rfl⟩

/-- C5 amended: an instrument for which no fetch of the cycle produced a
quote has NO entry in the grouped mapping (the key is absent, rather than
being present with an empty sequence). -/
theorem instrument_absent_when_no_quotes (rs : List (Option Quote)) (s : String)
    (h : quotesFor s rs = []) :
    List.lookup s (groupedResults rs) = none := by
  rw [groupedResults, lookup_groupFold rs [] s]
  simp [List.lookup, h]

/-- Witness for the amended C5: a two-result cycle in which the only fetch
for B/USDT failed. -/
theorem instrument_absent_when_no_quotes_witness :
    List.lookup "B/USDT" (groupedResults [some qW1, none]) = none :=
  instrument_absent_when_no_quotes [some qW1, none] "B/USDT" rfl

/-! ## C8: a failed fetch is isolated -/

theorem filterMap_set_none_eraseIdx :
    ∀ (rs : List (Option Quote)) (i : ℕ),
      (rs.set i none).filterMap id = (rs.eraseIdx i).filterMap id
  | [], _ => rfl
  | r :: rs, 0 => by
      cases r <;> simp [List.set, List.eraseIdx]
  | r :: rs, i + 1 => by
      cases r <;>
        simp [List.set, List.eraseIdx, filterMap_set_none_eraseIdx rs i]

theorem quotesFor_set_none :
    ∀ (rs : List (Option Quote)) (i : ℕ) (q : Quote) (s : String),
      rs.get? i = some (some q) → q.symbol ≠ s →
      quotesFor s (rs.set i none) = quotesFor s rs
  | [], i, q, s, h, _ => by cases h
  | r :: rs, 0, q, s, h, hne => by
      have hr : r = some q := Option.some.inj h
      subst hr
      show quotesFor s (none :: rs) = quotesFor s (some q :: rs)
      rw [quotesFor_cons_none, quotesFor_cons_some_ne s q rs hne]
  | r :: rs, i + 1, q, s, h, hne => by
      have htail : rs.get? i = some (some q) := h
      show quotesFor s (r :: rs.set i none) = quotesFor s (r :: rs)
      cases r with
      | none =>
          rw [quotesFor_cons_none, quotesFor_cons_none]
          exact quotesFor_set_none rs i q s htail hne
      | some r' =>
          by_cases hr : r'.symbol = s
          · rw [quotesFor_cons_some_eq s r' _ hr, quotesFor_cons_some_eq s r' rs hr,
              quotesFor_set_none rs i q s htail hne]
          · rw [quotesFor_cons_some_ne s r' _ hr, quotesFor_cons_some_ne s r' rs hr]
            exact quotesFor_set_none rs i q s htail hne

/-- C8: a fetch whose underlying call fails yields `None` (the failure is
caught inside the fetcher); replacing any one successful result for
instrument `I` by such a `None` leaves every other instrument's group entry
and evaluated opportunities identical, and leaves `I`'s group equal to the
group computed from the remaining results only. -/
theorem fetch_failure_isolated :
    (∀ ex sym err, fetch_ticker ex sym (.error err) = none) ∧
    (∀ (rs : List (Option Quote)) (i : ℕ) (q : Quote),
      rs.get? i = some (some q) →
      (∀ s, s ≠ q.symbol →
        List.lookup s (groupedResults (rs.set i none)) =
          List.lookup s (groupedResults rs) ∧
        evalSymbolOpps s (quotesFor s (rs.set i none)) =
          evalSymbolOpps s (quotesFor s rs)) ∧
      quotesFor q.symbol (rs.set i none) = quotesFor q.symbol (rs.eraseIdx i)) := by
  constructor
  · intro ex sym err
    rfl
  · intro rs i q hget
    constructor
    · intro s hs
      have hq : quotesFor s (rs.set i none) = quotesFor s rs :=
        quotesFor_set_none rs i q s hget (fun e => hs e.symm)
      constructor
      · rw [groupedResults, groupedResults, lookup_groupFold (rs.set i none) [] s,
          lookup_groupFold rs [] s, hq]
      · rw [hq]
    · show ((rs.set i none).filterMap id).filter _ =
        ((rs.eraseIdx i).filterMap id).filter _
      rw [filterMap_set_none_eraseIdx rs i]

/-- Witness for C8: fail the middle fetch (qW2, instrument B/USDT) of a
three-result cycle and observe instrument A/USDT untouched. -/
theorem fetch_failure_isolated_witness :
    fetch_ticker "binance" "BTC/USDT" (.error "timeout") = none ∧
    List.lookup "A/USDT" (groupedResults ([some qW1, some qW2, some qW3].set 1 none)) =
      List.lookup "A/USDT" (groupedResults [some qW1, some qW2, some qW3]) ∧
    evalSymbolOpps "A/USDT" (quotesFor "A/USDT" ([some qW1, some qW2, some qW3].set 1 none)) =
      evalSymbolOpps "A/USDT" (quotesFor "A/USDT" [some qW1, some qW2, some qW3]) ∧
    quotesFor qW2.symbol ([some qW1, some qW2, some qW3].set 1 none) =
      quotesFor qW2.symbol ([some qW1, some qW2, some qW3].eraseIdx 1) := by
  have h := fetch_failure_isolated
  have h2 := h.2 [some qW1, some qW2, some qW3] 1 qW2 rfl
  have h3 := h2.1 "A/USDT" (by decide)
  exact ⟨h.1 "binance" "BTC/USDT" "timeout", h3.1, h3.2, h2.2⟩

/-! ## C6: the ranking is a stable descending sort -/

/-- C6: the ranked output is sorted non-increasingly by `profitPercentage`,
and opportunities with equal `profitPercentage` keep their original relative
order (for every key value, filtering the output by that key gives exactly
the input's subsequence with that key). -/
theorem ranking_sorted_stable (l : List Opportunity) :
    List.Pairwise
      (fun x y => y.profit_percentage ≤ x.profit_percentage) (sortOpps l) ∧
    ∀ c : ℚ,
      (sortOpps l).filter (fun o => decide (o.profit_percentage = c)) =
        l.filter (fun o => decide (o.profit_percentage = c)) := by
  have htrans : ∀ a b c : Opportunity,
      (decide (b.profit_percentage ≤ a.profit_percentage)) = true →
      (decide (c.profit_percentage ≤ b.profit_percentage)) = true →
      (decide (c.profit_percentage ≤ a.profit_percentage)) = true := by
    intro a b c hab hbc
    exact decide_eq_true (le_trans (of_decide_eq_true hbc) (of_decide_eq_true hab))
  have htotal : ∀ a b : Opportunity,
      (decide (b.profit_percentage ≤ a.profit_percentage) ||
        decide (a.profit_percentage ≤ b.profit_percentage)) = true := by
    intro a b
    rcases le_total b.profit_percentage a.profit_percentage with h | h
    · simp [h]
    · simp [h]
  constructor
  · have hp := List.sorted_mergeSort htrans htotal l
    rw [sortOpps]
    exact hp.imp (fun h => of_decide_eq_true h)
  · intro c
    have hA : List.Sublist (l.filter (fun o => decide (o.profit_percentage = c))) l :=
      List.filter_sublist l
    have hkey : ∀ o ∈ l.filter (fun o => decide (o.profit_percentage = c)),
        o.profit_percentage = c :=
      fun o ho => of_decide_eq_true ((List.mem_filter.mp ho).2)
    have hpair : (l.filter (fun o => decide (o.profit_percentage = c))).Pairwise
        (fun a b => (decide (b.profit_percentage ≤ a.profit_percentage)) = true) := by
      refine List.pairwise_of_forall_mem_list ?_
      intro a ha b hb
      exact decide_eq_true (by rw [hkey b hb, hkey a ha])
    have hsub := List.sublist_mergeSort htrans htotal hpair hA
    have hfiltered :
        List.Sublist (l.filter (fun o => decide (o.profit_percentage = c)))
          ((List.mergeSort l
            (fun x y => decide (y.profit_percentage ≤ x.profit_percentage))).filter
            (fun o => decide (o.profit_percentage = c))) := by
      have hs := List.Sublist.filter (fun o => decide (o.profit_percentage = c)) hsub
      rwa [List.filter_eq_self.mpr
        (fun a ha => (List.mem_filter.mp ha).2)] at hs
    have hperm :
        List.Perm
          ((List.mergeSort l
            (fun x y => decide (y.profit_percentage ≤ x.profit_percentage))).filter
            (fun o => decide (o.profit_percentage = c)))
          (l.filter (fun o => decide (o.profit_percentage = c))) :=
      (List.mergeSort_perm l _).filter _
    rw [sortOpps]
    exact (List.Sublist.eq_of_length hfiltered hperm.length_eq.symm).symm
